import Mathlib

/-!
Verification development for the asynchronous parallel Bayesian-optimization
solver (`autotf/tuner/parallel_solver/async_parallel_solver.py`).

The solver's control flow is shallowly embedded here:
* worker-pool trials are abstracted by an environment `Env` that supplies, for
  each submitted trial id, its eventual result `(y, eval_time, x)` and, for
  each polling tick, whether the trial is observed completed;
* scalar function values and times are modelled as `Int` (the claims under
  study are about control flow, ordering, min/argmin and counting, none of
  which depend on float-specific behaviour);
* Python exceptions are modelled with `Except PyError`;
* a ghost `events` trace records, in order, the externally visible actions of
  the control loop (submissions, candidate-selection calls, harvests, sleeps),
  so that trace properties of a run can be stated.

Every definition follows the Python source line by line; comments cite the
source lines they embed.
-/

namespace AsyncSolver

/-- Python exceptions that the embedded control flow can raise itself
(exceptions raised by external collaborators - the objective, the surrogate
model - are out of scope, as in the spec). -/
inductive PyError where
  | nameError
  | indexError
  | attributeError
  | typeError
  | zeroDivisionError
  deriving Repr, DecidableEq

/-- Which arm of `choose_next` produced the candidate: the initial-design
sampler, or the surrogate path (`model.train`, acquisition update,
`maximize`).  Ghost instrumentation recording which branch executed. -/
inductive ChooseBranch where
  | initDesign
  | surrogate
  deriving Repr, DecidableEq

/-- Ghost trace of externally visible actions of the control loop. -/
inductive Event where
  /-- submission of initial-design point `i` (source line 105) -/
  | initSubmit (i : Nat)
  /-- admission-control backoff `time.sleep(0.1)` (source line 151) -/
  | sleep
  /-- a call of `choose_next(X, y, do_optimize)` and the branch it took
  (source line 161) -/
  | chooseNext (X : Option (List (List Int))) (y : Option (List Int))
      (do_optimize : Bool) (branch : ChooseBranch)
  /-- submission of an adaptive trial (source line 166); `counter` is the
  value of `evaluate_counter` at submission time, before the increment -/
  | submit (id : Nat) (counter : Nat) (do_optimize : Bool)
  /-- a completed trial harvested by `collect` (source lines 192-218) -/
  | harvest (id : Nat)
  /-- `save_output(i)` during the initial phase (source line 137) -/
  | save (it : Nat)
  deriving Repr, DecidableEq

/-- The run-scoped state owned by the control thread: the dataset, the
histories, the in-flight trial list and the submission counter
(`__init__`, source lines 46-63, plus locals of `run`).  `nextTrialId`
numbers pool submissions, `chooseCalls` counts `choose_next` invocations
(it indexes the sampler / maximizer oracles of `Env`), `ticks` counts
iterations of the main `while` loop, and `events` is the ghost trace. -/
structure SolverState where
  X : Option (List (List Int))
  y : Option (List Int)
  time_func_evals : List Int
  time_overhead : List Int
  incumbents : List (List Int)
  incumbents_values : List Int
  runtime : List Int
  trial_statistics : List Nat
  evaluate_counter : Nat
  nextTrialId : Nat
  chooseCalls : Nat
  ticks : Nat
  events : List Event
  deriving Repr, DecidableEq

/-- The state right after `__init__` (source lines 46-63): empty dataset,
empty histories, empty in-flight list. -/
def initState : SolverState :=
  { X := none
    y := none
    time_func_evals := []
    time_overhead := []
    incumbents := []
    incumbents_values := []
    runtime := []
    trial_statistics := []
    evaluate_counter := 0
    nextTrialId := 0
    chooseCalls := 0
    ticks := 0
    events := [] }

/-- The environment: solver configuration plus oracles abstracting the
external collaborators and the worker pool.
* `results id` is the `(y, eval_time, x)` triple that trial `id` resolves to
  (`trial.result()`); all trials are assumed to succeed, since a failing
  objective is an external, fatal condition outside the claims under study.
* `doneAt t id` tells whether trial `id` is observed completed when polled
  during main-loop tick `t` (`trial.done()`).  The initial-phase barrier
  blocks until every initial trial has completed, so it does not consult
  `doneAt`; its harvest runs after completion of all initial trials.
* `initBatch i` is row `i` of the matrix returned by the initial-design
  sampler when called with `init_points` (its contract returns exactly
  `init_points` rows); `sampleOne k` is the single row returned by the
  sampler on its `k`-th in-loop call, `maximizePt k` the point returned by
  the acquisition maximizer on its `k`-th call.
* `clock` and `overheadAt` supply the wall-clock readings appended to the
  `runtime` and `time_overhead` histories; `initOverhead` is the averaged
  per-point overhead of the initial batch (source line 100). -/
structure Env where
  num_workers : Nat
  train_interval : Nat
  init_points : Nat
  output_path : Bool
  initBatch : Nat → List Int
  initOverhead : Int
  results : Nat → Int × Int × List Int
  doneAt : Nat → Nat → Bool
  sampleOne : Nat → List Int
  maximizePt : Nat → List Int
  clock : Nat → Int
  overheadAt : Nat → Int

/-- Index of the first occurrence of the minimum of a list: the embedding of
`np.argmin` (which returns the first index attaining the minimum).  On `[]`
the value is irrelevant (`np.argmin` raises there; all call sites pass a
nonempty list). -/
def argminIdx : List Int → Nat
  | [] => 0
  | x :: xs =>
    let j := argminIdx xs
    if xs.getD j x < x then j + 1 else 0

/-- The incumbent-estimation block duplicated at source lines 126-132 and
203-209: `best_idx = np.argmin(y); incumbent = X[best_idx];
incumbent_value = y[best_idx]`.  `getD` defaults are never used at call
sites (there `y` is nonempty and `len(X) == len(y)`). -/
def estimateIncumbent (X : List (List Int)) (y : List Int) : List Int × Int :=
  let b := argminIdx y
  (X.getD b [], y.getD b 0)

/-- `choose_next(X, y, do_optimize)`, source lines 221-265.
* `X is None and y is None` → one fresh initial-design sample;
* otherwise Python evaluates `X.shape[0]`, which raises `AttributeError`
  when `X` is `None`;
* `X.shape[0] == 1` → one fresh initial-design sample (source comment: a GP
  needs at least 2 data points);
* otherwise the surrogate path: `model.train(X, y, do_optimize)`,
  `acquisition_func.update(model)`, `maximize_func.maximize()` - all
  external collaborators, so only the returned point (the maximizer oracle)
  is modelled.  The returned `ChooseBranch` is ghost instrumentation. -/
def choose_next (env : Env) (X : Option (List (List Int)))
    (y : Option (List Int)) (do_optimize : Bool) (callIdx : Nat) :
    Except PyError (ChooseBranch × List Int) :=
  match X, y with
  | none, none => .ok (.initDesign, env.sampleOne callIdx)
  | none, some _ => .error .attributeError
  | some Xs, _ =>
    if Xs.length = 1 then .ok (.initDesign, env.sampleOne callIdx)
    else
      -- model.train(X, y, do_optimize=do_optimize); acquisition update;
      -- x = maximize_func.maximize()
      .ok (.surrogate, env.maximizePt callIdx)

/-- The body of `collect` executed for one completed trial, source lines
194-217: fetch `(new_y, time_taken, new_x)`, append to the histories and the
dataset, recompute the incumbent, and - if an output sink is configured -
call `self.save_output(evaluate_counter)`.  `evaluate_counter` is a local
variable of `run` and is neither a parameter of `collect`, nor assigned in
`collect`, nor a module global, so that name lookup raises `NameError`:
this is modelled by returning `PyError.nameError` (the mutations preceding
the raise are discarded together with the run, as the exception propagates
out of `run`).  `np.append` on a dataset that is still `None` raises; this
unreachable arm is modelled as `PyError.typeError`. -/
def processTrial (env : Env) (tickNo : Nat) (id : Nat) (s : SolverState) :
    Except PyError SolverState :=
  let r := env.results id
  match s.X, s.y with
  | some Xs, some ys =>
    let Xs2 := Xs ++ [r.2.2]
    let ys2 := ys ++ [r.1]
    let inc := estimateIncumbent Xs2 ys2
    let s2 : SolverState :=
      { s with
        time_func_evals := s.time_func_evals ++ [r.2.1]
        X := some Xs2
        y := some ys2
        incumbents := s.incumbents ++ [inc.1]
        incumbents_values := s.incumbents_values ++ [inc.2]
        runtime := s.runtime ++ [env.clock tickNo]
        events := s.events ++ [Event.harvest id] }
    if env.output_path then .error .nameError else .ok s2
  | _, _ => .error .typeError

/-- The `for trial in self.trial_statistics:` loop of `collect` (source
lines 192-218) with CPython list-iteration semantics made explicit: the
iterator keeps an index `i` into the current list; the body removes the
current element from the list (`self.trial_statistics.remove(trial)`
removes the first occurrence of the value, as `List.erase` does), after
which the incremented index points past the element that shifted into the
vacated slot.  `fuel` bounds the number of iterations; since `i` grows by
one per iteration and the list never grows, the initial list length is
always a sufficient fuel, so the fuel-exhaustion arm is unreachable from
`collect`. -/
def collectGo (env : Env) (tickNo : Nat) :
    Nat → Nat → List Nat → SolverState → Except PyError (List Nat × SolverState)
  | 0, _, lst, s => .ok (lst, s)
  | fuel + 1, i, lst, s =>
    if h : i < lst.length then
      let id := lst.get ⟨i, h⟩
      if env.doneAt tickNo id then
        match processTrial env tickNo id s with
        | .error e => .error e
        | .ok s2 => collectGo env tickNo fuel (i + 1) (lst.erase id) s2
      else collectGo env tickNo fuel (i + 1) lst s
    else .ok (lst, s)

/-- `collect()`, source lines 190-218.  Polling uses the current main-loop
tick number `s.ticks`. -/
def collect (env : Env) (s : SolverState) : Except PyError SolverState :=
  match collectGo env s.ticks s.trial_statistics.length 0 s.trial_statistics s with
  | .error e => .error e
  | .ok (lst, s2) => .ok { s2 with trial_statistics := lst }

/-- One iteration of the main `while evaluate_counter < num_iterations`
loop, source lines 149-171:
* admission control: if more than `2 * num_workers` trials are in flight,
  `time.sleep(0.1)` and submit nothing this tick (lines 150-151);
* otherwise decide `do_optimize` (`(evaluate_counter+1) % train_interval
  == 0`; Python `%` by zero raises `ZeroDivisionError`), pick the next
  candidate with `choose_next`, record the decision overhead, submit the
  candidate to the pool and increment `evaluate_counter` (lines 153-168);
* in both branches, harvest completions with `collect()` (line 171). -/
def tick (env : Env) (s0 : SolverState) : Except PyError SolverState :=
  let s := { s0 with ticks := s0.ticks + 1 }
  let step1 : Except PyError SolverState :=
    if s.trial_statistics.length > 2 * env.num_workers then
      .ok { s with events := s.events ++ [Event.sleep] }
    else
      if env.train_interval = 0 then .error .zeroDivisionError
      else
        let do_optimize : Bool := (s.evaluate_counter + 1) % env.train_interval == 0
        match choose_next env s.X s.y do_optimize s.chooseCalls with
        | .error e => .error e
        | .ok br =>
          .ok { s with
                chooseCalls := s.chooseCalls + 1
                time_overhead := s.time_overhead ++ [env.overheadAt s.ticks]
                trial_statistics := s.trial_statistics ++ [s.nextTrialId]
                nextTrialId := s.nextTrialId + 1
                evaluate_counter := s.evaluate_counter + 1
                events := s.events ++
                  [Event.chooseNext s.X s.y do_optimize br.1,
                   Event.submit s.nextTrialId s.evaluate_counter do_optimize] }
  match step1 with
  | .error e => .error e
  | .ok s2 => collect env s2

/-- The main loop, source lines 149-171, driven by `fuel` ticks at most.
When `fuel` runs out the current state is returned; every theorem below
either supplies enough fuel for the loop condition to fail first, or holds
for all fuels. -/
def loopIter (env : Env) (num_iterations : Nat) :
    Nat → SolverState → Except PyError SolverState
  | 0, s => .ok s
  | fuel + 1, s =>
    if s.evaluate_counter < num_iterations then
      match tick env s with
      | .error e => .error e
      | .ok s2 => loopIter env num_iterations fuel s2
    else .ok s

/-- One step of the initial-phase harvest loop, source lines 117-137:
`new_y, time_taken, _ = trial.result(); X.append(init[i]); y.append(new_y)`
followed by the history appends, the incumbent re-estimation over the
local lists built so far, and `save_output(i)` when an output sink is
configured (during this phase the index `i` is in scope and all histories
have exactly `i+1` entries, so the save succeeds; it is recorded as a
ghost `Event.save`).  The accumulator carries the local Python lists
`X`, `y` and the solver state. -/
def initStep (env : Env) (acc : List (List Int) × List Int × SolverState)
    (i : Nat) : List (List Int) × List Int × SolverState :=
  let r := env.results i
  let Xl := acc.1 ++ [env.initBatch i]
  let yl := acc.2.1 ++ [r.1]
  let s := acc.2.2
  let inc := estimateIncumbent Xl yl
  (Xl, yl,
    { s with
      time_func_evals := s.time_func_evals ++ [r.2.1]
      time_overhead := s.time_overhead ++ [env.initOverhead]
      incumbents := s.incumbents ++ [inc.1]
      incumbents_values := s.incumbents_values ++ [inc.2]
      runtime := s.runtime ++ [env.clock 0]
      events := s.events ++ (if env.output_path then [Event.save i] else []) })

/-- The initial-design phase, source lines 90-140: sample `init_points`
points, submit them all (trial ids `0 .. init_points-1`), compute the
averaged per-point overhead (`/ init_points` raises `ZeroDivisionError`
when `init_points = 0`), barrier-wait until every initial trial is done
(lines 108-115; the poll loop blocks until completion, so the harvest
below runs with all results available), then harvest them in submission
order and store the dataset (`self.X = np.array(X); self.y = np.array(y)`). -/
def initialPhase (env : Env) (s0 : SolverState) : Except PyError SolverState :=
  if env.init_points = 0 then .error .zeroDivisionError
  else
    let s1 : SolverState :=
      { s0 with
        trial_statistics := List.range env.init_points
        nextTrialId := env.init_points
        events := s0.events ++ (List.range env.init_points).map Event.initSubmit }
    let acc := (List.range env.init_points).foldl (initStep env) ([], [], s1)
    .ok { acc.2.2 with X := some acc.1, y := some acc.2.1 }

/-- `run(num_iterations, X, y)`, source lines 65-188.
* Lines 90-143: when both `X` and `y` are `None`, run the initial-design
  phase; otherwise store the supplied dataset as-is (`self.X = X;
  self.y = y`).
* Lines 147-148: reset the in-flight list and start `evaluate_counter`
  at `init_points`.
* Lines 149-171: the main loop (`loopIter`).
* Lines 173-183: `if not len(self.trial_statistics):` - the final-drain
  block is entered only when the in-flight list is EMPTY; its inner wait
  loop then iterates over an empty list and its `collect()` call harvests
  nothing.  When trials are still in flight the block is skipped.  This
  condition is embedded exactly as written in the source.
* Lines 185-188: return `(self.incumbents[-1], self.incumbents_values[-1])`;
  indexing an empty history raises `IndexError`.
The entry line 90-143 dispatch lives in `runSolver`; `runFinish` is the
remainder of `run` from line 147 on, shared by both branches. -/
def runFinish (env : Env) (num_iterations fuel : Nat) (s1 : SolverState) :
    Except PyError (SolverState × (List Int × Int)) :=
  let s2 : SolverState :=
    { s1 with trial_statistics := [], evaluate_counter := env.init_points }
  match loopIter env num_iterations fuel s2 with
  | .error e => .error e
  | .ok s3 =>
    let after : Except PyError SolverState :=
      if s3.trial_statistics.isEmpty then collect env s3 else .ok s3
    match after with
    | .error e => .error e
    | .ok s4 =>
      match s4.incumbents.getLast?, s4.incumbents_values.getLast? with
      | some p, some v => .ok (s4, (p, v))
      | _, _ => .error .indexError

def runSolver (env : Env) (num_iterations : Nat)
    (X : Option (List (List Int))) (y : Option (List Int)) (fuel : Nat) :
    Except PyError (SolverState × (List Int × Int)) :=
  match X, y with
  | none, none =>
    match initialPhase env initState with
    | .error e => .error e
    | .ok s1 => runFinish env num_iterations fuel s1
  | _, _ => runFinish env num_iterations fuel { initState with X := X, y := y }

/-- A small concrete environment used by the concrete theorems and witnesses
below: one worker, retraining every tick, one initial point, no output sink.
Trial 0 completes; any later trial is never observed completed while the run
is still polling. -/
def envA : Env :=
  { num_workers := 1
    train_interval := 1
    init_points := 1
    output_path := false
    initBatch := fun _ => [0]
    initOverhead := 0
    results := fun id => (5 - Int.ofNat id, 1, [Int.ofNat id])
    doneAt := fun _ id => id == 0
    sampleOne := fun _ => [7]
    maximizePt := fun _ => [3]
    clock := fun t => Int.ofNat t
    overheadAt := fun t => Int.ofNat t }

/-- Environment in which every trial is observed completed at every poll. -/
def envDone : Env := { envA with doneAt := fun _ _ => true }

/-- Like `envDone` but with an output sink configured. -/
def envDoneOut : Env := { envDone with output_path := true }

/-- A `collect`-entry state with two in-flight trials (both completed under
`envDone`). -/
def sC2 : SolverState :=
  { initState with trial_statistics := [0, 1], X := some [[9]], y := some [9] }

/-- A `collect`-entry state with one in-flight trial (completed under
`envDoneOut`). -/
def sC3 : SolverState :=
  { initState with trial_statistics := [0], X := some [[9]], y := some [9] }

/-- Recognizer for main-loop submission events. -/
def isSubmitEv : Event → Bool
  | Event.submit _ _ _ => true
  | _ => false

/-- Recognizer for `choose_next` call events. -/
def isChooseEv : Event → Bool
  | Event.chooseNext _ _ _ _ => true
  | _ => false

/-- Recognizer for initial-design submission events. -/
def isInitSubmitEv : Event → Bool
  | Event.initSubmit _ => true
  | _ => false

/-- Number of main-loop submissions recorded in a trace. -/
def submitCount (l : List Event) : Nat := l.countP isSubmitEv

/-- `SubTrace ti c l` holds when, reading the trace `l` left to right and
keeping a running submission counter starting at `c`, every `submit` event
records exactly the running counter and a retrain flag equal to
`(counter + 1) % ti == 0`, the counter advancing by one per submission.
With `c = init_points` this is precisely the claim that the retrain flag of
every main-loop submission is true exactly when
`(submitted_count + 1) % train_interval == 0`, the submitted-trial counter
counting submissions and starting at the configured number of initial
points. -/
def SubTrace (ti : Nat) : Nat → List Event → Prop
  | _, [] => True
  | c, Event.submit _ c0 b :: rest =>
      c0 = c ∧ b = ((c + 1) % ti == 0) ∧ SubTrace ti (c + 1) rest
  | c, _ :: rest => SubTrace ti c rest

/-- A list of integers is non-increasing: every later entry is less than or
equal to every earlier entry. -/
def NonIncr (l : List Int) : Prop :=
  ∀ i j, i ≤ j → j < l.length → l.getD j 0 ≤ l.getD i 0

/-- The inductive invariant behind the non-increasing incumbent-value
history: the recorded values are non-increasing, and the most recently
recorded value is bounded below by some element of the current value
dataset `ys` (namely, it was a minimum of a prefix of `ys`). -/
def ValuesBound (vals ys : List Int) : Prop :=
  NonIncr vals ∧ ∀ v, vals.getLast? = some v → ∃ e ∈ ys, e ≤ v

/-- `ValuesBound` instantiated at a solver state. -/
def IncInv (s : SolverState) : Prop :=
  ValuesBound s.incumbents_values (s.y.getD [])

/-! ### List helper lemmas -/

theorem getD_eq_get : ∀ (l : List Int) (i : Nat) (d : Int) (h : i < l.length),
    l.getD i d = l.get ⟨i, h⟩
  | _ :: _, 0, _, _ => rfl
  | _ :: l, i + 1, d, h => getD_eq_get l i d (Nat.lt_of_succ_lt_succ h)

theorem getD_eq_of_lt (l : List Int) (d1 d2 : Int) (i : Nat) (h : i < l.length) :
    l.getD i d1 = l.getD i d2 := by
  rw [getD_eq_get l i d1 h, getD_eq_get l i d2 h]

theorem getD_mem (l : List Int) (i : Nat) (d : Int) (h : i < l.length) :
    l.getD i d ∈ l := by
  rw [getD_eq_get l i d h]
  exact List.get_mem l i h

theorem mem_exists_getD (l : List Int) (e : Int) (h : e ∈ l) :
    ∃ i, i < l.length ∧ l.getD i 0 = e := by
  obtain ⟨⟨i, hi⟩, rfl⟩ := List.mem_iff_get.mp h
  exact ⟨i, hi, getD_eq_get l i 0 hi⟩

/-! ### Lemmas about `argminIdx` (the embedding of `np.argmin`) -/

theorem argminIdx_cond_ne_nil {x : Int} {xs : List Int}
    (h : xs.getD (argminIdx xs) x < x) : xs ≠ [] := by
  intro he
  subst he
  exact absurd h (lt_irrefl x)

theorem argminIdx_lt : ∀ (l : List Int), l ≠ [] → argminIdx l < l.length := by
  intro l
  induction l with
  | nil => intro h; exact absurd rfl h
  | cons x xs ih =>
    intro _
    simp only [argminIdx, List.length_cons]
    split
    case isTrue h => have := ih (argminIdx_cond_ne_nil h); omega
    case isFalse h => omega

theorem argminIdx_le_getD (l : List Int) :
    ∀ i, i < l.length → l.getD (argminIdx l) 0 ≤ l.getD i 0 := by
  induction l with
  | nil => intro i hi; simp at hi
  | cons x xs ih =>
    intro i hi
    simp only [argminIdx]
    split
    case isTrue h =>
      have hxs : xs ≠ [] := argminIdx_cond_ne_nil h
      have hj : argminIdx xs < xs.length := argminIdx_lt xs hxs
      cases i with
      | zero =>
        show xs.getD (argminIdx xs) 0 ≤ x
        rw [getD_eq_of_lt xs 0 x (argminIdx xs) hj]
        exact le_of_lt h
      | succ i =>
        show xs.getD (argminIdx xs) 0 ≤ xs.getD i 0
        exact ih i (Nat.lt_of_succ_lt_succ hi)
    case isFalse h =>
      cases i with
      | zero => exact le_refl x
      | succ i =>
        show x ≤ xs.getD i 0
        have hi' : i < xs.length := Nat.lt_of_succ_lt_succ hi
        have hxs : xs ≠ [] := by
          intro he; subst he; simp at hi'
        have hj : argminIdx xs < xs.length := argminIdx_lt xs hxs
        have h1 : x ≤ xs.getD (argminIdx xs) x := le_of_not_lt h
        rw [getD_eq_of_lt xs x 0 (argminIdx xs) hj] at h1
        exact le_trans h1 (ih i hi')

theorem argminIdx_first (l : List Int) :
    ∀ j, j < argminIdx l → l.getD (argminIdx l) 0 < l.getD j 0 := by
  induction l with
  | nil => intro j hj; simp [argminIdx] at hj
  | cons x xs ih =>
    intro j hj
    simp only [argminIdx] at hj ⊢
    split
    case isTrue h =>
      have hxs : xs ≠ [] := argminIdx_cond_ne_nil h
      have hjlt : argminIdx xs < xs.length := argminIdx_lt xs hxs
      rw [if_pos h] at hj
      cases j with
      | zero =>
        show xs.getD (argminIdx xs) 0 < x
        rw [getD_eq_of_lt xs 0 x (argminIdx xs) hjlt]
        exact h
      | succ j =>
        show xs.getD (argminIdx xs) 0 < xs.getD j 0
        exact ih j (Nat.lt_of_succ_lt_succ hj)
    case isFalse h =>
      rw [if_neg h] at hj
      exact absurd hj (Nat.not_lt_zero j)

theorem argminVal_le_mem (l : List Int) (e : Int) (he : e ∈ l) :
    l.getD (argminIdx l) 0 ≤ e := by
  obtain ⟨i, hi, rfl⟩ := mem_exists_getD l e he
  exact argminIdx_le_getD l i hi

theorem argminVal_mem (l : List Int) (h : l ≠ []) :
    l.getD (argminIdx l) 0 ∈ l :=
  getD_mem l (argminIdx l) 0 (argminIdx_lt l h)

/-! ### Claim theorems -/

/-- C1 (code bug): the final-drain block (source lines 173-183, under the
comment "Wait for all tasks finish") is guarded by
`if not len(self.trial_statistics):`, which is entered only when the
in-flight list is already empty; consequently an outstanding trial is never
drained.  Concretely, with one worker, one initial point and a budget of 2,
the run submits two trials (ids 0 and 1, `nextTrialId = 2`), yet returns
normally while trial 1 is still in the in-flight list and the dataset holds
a single observation: the second submitted trial's result is never
collected, contradicting the claim that every submitted trial is harvested
before `run` returns. -/
theorem c1_final_drain_skipped :
    (runSolver envA 2 none none 2).map
      (fun p => (p.1.trial_statistics, p.1.nextTrialId, p.1.X, p.1.y)) =
    Except.ok ([1], 2, some [[0]], some [5]) := by rfl

/-- C2 (code bug): `collect` removes elements from `trial_statistics` while
iterating over it (source lines 192, 218), so the element that shifts into
the removed slot is skipped.  Concretely, with in-flight trials `[0, 1]`
both already completed at the start of the call, `collect` processes and
removes trial 0 but leaves trial 1 in the in-flight list with its result
unfetched (the dataset ends with 2 rows, not 3), contradicting the claim
that every handle completed at the start of the call is harvested and
removed by the end of that same call. -/
theorem c2_skips_completed_trial :
    envDone.doneAt sC2.ticks 1 = true ∧
    (collect envDone sC2).map
      (fun s => (s.trial_statistics, (s.X.getD []).length)) =
      Except.ok ([1], 2) :=
  ⟨rfl, rfl⟩

/-- C3 (code bug): inside `collect` the record-persisting step calls
`self.save_output(evaluate_counter)` (source line 216), but
`evaluate_counter` is a local variable of `run` and is not in scope in
`collect`, so the persisting step raises `NameError` on the very first
harvested observation whenever an output sink is configured - the
iteration-index variable is not well-defined inside `collect`. -/
theorem c3_save_output_raises :
    collect envDoneOut sC3 = Except.error PyError.nameError := by rfl

/-- C4 counterexample: a dataset with zero rows has fewer than 2
observations, yet `choose_next` takes the surrogate path (its guard tests
`X.shape[0] == 1`, not `< 2`): the returned candidate is the acquisition
maximizer's point `[3]`, not the initial-design sample `[7]`. -/
theorem c4_counterexample :
    choose_next envA (some []) (some []) true 0 =
      Except.ok (ChooseBranch.surrogate, [3]) := by rfl

/-- C4 amended: the candidate comes from the initial-design sampler exactly
when `X` and `y` are both `None`, or `X` has exactly one row; a zero-row
dataset (and any other row count different from 1) takes the surrogate
path. -/
theorem c4_amended_guard (env : Env) (X : Option (List (List Int)))
    (y : Option (List Int)) (b : Bool) (k : Nat) :
    (choose_next env X y b k).map Prod.fst = Except.ok ChooseBranch.initDesign ↔
      (X = none ∧ y = none) ∨ (∃ Xs, X = some Xs ∧ Xs.length = 1) := by
  cases X with
  | none =>
    cases y with
    | none => simp [choose_next, Except.map]
    | some ys => simp [choose_next, Except.map]
  | some Xs =>
    cases y with
    | none =>
      by_cases h : Xs.length = 1 <;> simp [choose_next, Except.map, h]
    | some ys =>
      by_cases h : Xs.length = 1 <;> simp [choose_next, Except.map, h]

/-- C6: the incumbent-estimation block (source lines 126-132 and 203-209)
is a stable argmin: the recorded value is a minimum of the full value
history `y` (it is an element of `y` and is less than or equal to every
entry), and the recorded point is the dataset row at the earliest index
attaining that minimum (every strictly earlier entry is strictly larger). -/
theorem c6_incumbent_stable_min (X : List (List Int)) (y : List Int)
    (hy : y ≠ []) (hlen : X.length = y.length) :
    (∀ i, i < y.length → (estimateIncumbent X y).2 ≤ y.getD i 0) ∧
    (estimateIncumbent X y).2 ∈ y ∧
    (∃ b, b < y.length ∧ b < X.length ∧
      X.getD b [] = (estimateIncumbent X y).1 ∧
      y.getD b 0 = (estimateIncumbent X y).2 ∧
      ∀ j, j < b → (estimateIncumbent X y).2 < y.getD j 0) := by
  have hb : argminIdx y < y.length := argminIdx_lt y hy
  exact ⟨fun i hi => argminIdx_le_getD y i hi, argminVal_mem y hy,
    ⟨argminIdx y, hb, by omega, rfl, rfl, fun j hj => argminIdx_first y j hj⟩⟩

/-- Witness for C6 at a concrete input: `X = [[1],[2]]`, `y = [3,2]`; the
minimum 2 is attained first at index 1 and the recorded incumbent is
`([2], 2)`. -/
theorem c6_witness :
    ([3, 2] : List Int) ≠ [] ∧
    ([[1], [2]] : List (List Int)).length = ([3, 2] : List Int).length ∧
    ((∀ i, i < ([3, 2] : List Int).length →
        (estimateIncumbent [[1], [2]] [3, 2]).2 ≤ ([3, 2] : List Int).getD i 0) ∧
      (estimateIncumbent [[1], [2]] [3, 2]).2 ∈ ([3, 2] : List Int) ∧
      (∃ b, b < ([3, 2] : List Int).length ∧ b < ([[1], [2]] : List (List Int)).length ∧
        ([[1], [2]] : List (List Int)).getD b [] = (estimateIncumbent [[1], [2]] [3, 2]).1 ∧
        ([3, 2] : List Int).getD b 0 = (estimateIncumbent [[1], [2]] [3, 2]).2 ∧
        ∀ j, j < b → (estimateIncumbent [[1], [2]] [3, 2]).2 < ([3, 2] : List Int).getD j 0)) :=
  ⟨by decide, by decide, c6_incumbent_stable_min [[1], [2]] [3, 2] (by decide) (by decide)⟩

/-- C10: when `run` is called with a pre-evaluated dataset and the
iteration budget does not exceed `init_points`, the main loop never
executes (`evaluate_counter` starts at `init_points`), nothing is ever
harvested, the incumbent history stays empty, and the final
`self.incumbents[-1]` raises `IndexError` instead of returning an
incumbent pair. -/
theorem c10_supplied_small_budget (env : Env) (num_iterations : Nat)
    (X0 : List (List Int)) (y0 : List Int) (fuel : Nat)
    (h : num_iterations ≤ env.init_points) :
    runSolver env num_iterations (some X0) (some y0) fuel =
      Except.error PyError.indexError := by
  have hlt : ¬ env.init_points < num_iterations := by omega
  cases fuel with
  | zero => simp [runSolver, runFinish, loopIter, collect, collectGo, initState]
  | succ n => simp [runSolver, runFinish, loopIter, collect, collectGo, initState, hlt]

/-- Witness for C10: with `envA` (one initial point) and a budget of 1,
`run` on a supplied dataset raises `IndexError`. -/
theorem c10_witness :
    1 ≤ envA.init_points ∧
    runSolver envA 1 (some [[0]]) (some [4]) 3 = Except.error PyError.indexError :=
  ⟨by decide, c10_supplied_small_budget envA 1 [[0]] [4] 3 (by decide)⟩

/-! ### The in-flight bound (C5) -/

theorem collectGo_length (env : Env) (t : Nat) :
    ∀ (fuel i : Nat) (lst : List Nat) (s : SolverState) (lst2 : List Nat) (s2 : SolverState),
      collectGo env t fuel i lst s = .ok (lst2, s2) → lst2.length ≤ lst.length := by
  intro fuel
  induction fuel with
  | zero =>
    intro i lst s lst2 s2 h
    simp only [collectGo] at h
    cases h
    exact le_refl _
  | succ n ih =>
    intro i lst s lst2 s2 h
    simp only [collectGo] at h
    split at h
    case isTrue hi =>
      split at h
      case isTrue hdone =>
        split at h
        case h_1 e he => exact absurd h (by simp)
        case h_2 s3 hs3 =>
          have h1 := ih (i + 1) (lst.erase (lst.get ⟨i, hi⟩)) s3 lst2 s2 h
          have h2 : (lst.erase (lst.get ⟨i, hi⟩)).length ≤ lst.length :=
            List.length_erase_le _ _
          omega
      case isFalse hdone => exact ih (i + 1) lst s lst2 s2 h
    case isFalse hi =>
      cases h
      exact le_refl _

theorem collect_length (env : Env) (s s2 : SolverState)
    (h : collect env s = .ok s2) :
    s2.trial_statistics.length ≤ s.trial_statistics.length := by
  simp only [collect] at h
  split at h
  case h_1 => exact absurd h (by simp)
  case h_2 lst p hp =>
    cases h
    simpa using collectGo_length env s.ticks s.trial_statistics.length 0
      s.trial_statistics s lst p hp

theorem tick_length_le (env : Env) (s s2 : SolverState)
    (hb : s.trial_statistics.length ≤ 2 * env.num_workers + 1)
    (h : tick env s = .ok s2) :
    s2.trial_statistics.length ≤ 2 * env.num_workers + 1 := by
  simp only [tick] at h
  split at h
  case h_1 e he => exact absurd h (by simp)
  case h_2 s3 hs3 =>
    have hcol : s3.trial_statistics.length ≤ 2 * env.num_workers + 1 := by
      split at hs3
      case isTrue hc => cases hs3; simpa using hb
      case isFalse hc =>
        split at hs3
        case isTrue => exact absurd hs3 (by simp)
        case isFalse =>
          split at hs3
          case h_1 e he => exact absurd hs3 (by simp)
          case h_2 br hbr =>
            cases hs3
            simp only [List.length_append, List.length_cons, List.length_nil]
            omega
    have := collect_length env s3 s2 h
    omega

theorem loopIter_length_le (env : Env) (n : Nat) :
    ∀ (fuel : Nat) (s s2 : SolverState),
      s.trial_statistics.length ≤ 2 * env.num_workers + 1 →
      loopIter env n fuel s = .ok s2 →
      s2.trial_statistics.length ≤ 2 * env.num_workers + 1 := by
  intro fuel
  induction fuel with
  | zero =>
    intro s s2 hb h
    simp only [loopIter] at h
    cases h
    exact hb
  | succ m ih =>
    intro s s2 hb h
    simp only [loopIter] at h
    split at h
    case isTrue =>
      split at h
      case h_1 => exact absurd h (by simp)
      case h_2 s3 hs3 => exact ih s3 s2 (tick_length_le env s s3 hb hs3) h
    case isFalse =>
      cases h
      exact hb

/-- C5: starting from the main-loop entry state (the in-flight list is
reset to `[]` at source line 147), the number of in-flight trials never
exceeds `2 * num_workers + 1`.  Since `loopIter` with fuel `k` yields
exactly the state after (at most) `k` main-loop iterations, quantifying
over all fuels covers every observation instant of the main loop: a tick
submits only when the in-flight count is not above `2 * num_workers`
(source line 150), so the count right after a submission is at most
`2 * num_workers + 1`, and harvesting only removes handles. -/
theorem c5_inflight_bound (env : Env) (num_iterations fuel : Nat)
    (s0 s2 : SolverState) (h0 : s0.trial_statistics = [])
    (h : loopIter env num_iterations fuel s0 = .ok s2) :
    s2.trial_statistics.length ≤ 2 * env.num_workers + 1 := by
  apply loopIter_length_le env num_iterations fuel s0 s2 _ h
  rw [h0]
  simp

/-- Witness for C5 at a concrete instance: the empty entry state and zero
budget. -/
theorem c5_witness :
    initState.trial_statistics = [] ∧
    loopIter envA 0 0 initState = Except.ok initState ∧
    initState.trial_statistics.length ≤ 2 * envA.num_workers + 1 :=
  ⟨rfl, rfl, c5_inflight_bound envA 0 0 initState initState rfl rfl⟩

/-! ### The retrain-flag trace property (C7) -/


theorem subTrace_of_noSubmit (ti : Nat) :
    ∀ (l : List Event) (c : Nat), (∀ e ∈ l, isSubmitEv e = false) → SubTrace ti c l := by
  intro l
  induction l with
  | nil => intro c _; trivial
  | cons e t ih =>
    intro c h
    have he : isSubmitEv e = false := h e (List.mem_cons_self e t)
    have ht : ∀ x ∈ t, isSubmitEv x = false := fun x hx => h x (List.mem_cons_of_mem e hx)
    cases e with
    | submit id c0 b => simp [isSubmitEv] at he
    | initSubmit i => exact ih c ht
    | sleep => exact ih c ht
    | chooseNext a b2 c2 d => exact ih c ht
    | harvest id => exact ih c ht
    | save i => exact ih c ht

theorem submitCount_append (l1 l2 : List Event) :
    submitCount (l1 ++ l2) = submitCount l1 + submitCount l2 := by
  simp [submitCount, List.countP_append]

theorem submitCount_eq_zero (l : List Event) (h : ∀ e ∈ l, isSubmitEv e = false) :
    submitCount l = 0 := by
  simp only [submitCount, List.countP_eq_zero]
  intro a ha
  simp [h a ha]

theorem subTrace_append (ti : Nat) :
    ∀ (l1 : List Event) (c : Nat) (l2 : List Event),
      SubTrace ti c l1 → SubTrace ti (c + submitCount l1) l2 →
      SubTrace ti c (l1 ++ l2) := by
  intro l1
  induction l1 with
  | nil =>
    intro c l2 _ h2
    simpa [submitCount] using h2
  | cons e t ih =>
    intro c l2 h1 h2
    cases e with
    | submit id c0 b =>
      obtain ⟨hc0, hb, ht⟩ := h1
      have hcount : submitCount (Event.submit id c0 b :: t) = submitCount t + 1 := by
        simp [submitCount, List.countP_cons, isSubmitEv]
      refine ⟨hc0, hb, ?_⟩
      apply ih (c + 1) l2 ht
      rw [hcount] at h2
      have heq : c + (submitCount t + 1) = c + 1 + submitCount t := by omega
      rw [heq] at h2
      exact h2
    | initSubmit i =>
      exact ih c l2 h1 (by simpa [submitCount, List.countP_cons, isSubmitEv] using h2)
    | sleep =>
      exact ih c l2 h1 (by simpa [submitCount, List.countP_cons, isSubmitEv] using h2)
    | chooseNext a b2 c2 d =>
      exact ih c l2 h1 (by simpa [submitCount, List.countP_cons, isSubmitEv] using h2)
    | harvest id =>
      exact ih c l2 h1 (by simpa [submitCount, List.countP_cons, isSubmitEv] using h2)
    | save i =>
      exact ih c l2 h1 (by simpa [submitCount, List.countP_cons, isSubmitEv] using h2)

theorem submitCount_choose_submit (l : List Event) (a : Option (List (List Int)))
    (b : Option (List Int)) (c : Bool) (d : ChooseBranch) (x y : Nat) (z : Bool) :
    submitCount (l ++ [Event.chooseNext a b c d, Event.submit x y z]) = submitCount l + 1 := by
  simp [submitCount, List.countP_append, List.countP_cons, isSubmitEv]

theorem processTrial_delta (env : Env) (t id : Nat) (s s2 : SolverState)
    (h : processTrial env t id s = .ok s2) :
    ∃ Xs ys, s.X = some Xs ∧ s.y = some ys ∧
      s2.events = s.events ++ [Event.harvest id] ∧
      s2.evaluate_counter = s.evaluate_counter ∧
      s2.y = some (ys ++ [(env.results id).1]) ∧
      s2.incumbents_values = s.incumbents_values ++
        [(estimateIncumbent (Xs ++ [(env.results id).2.2]) (ys ++ [(env.results id).1])).2] := by
  simp only [processTrial] at h
  split at h
  case h_1 Xs ys hX hy =>
    split at h
    case isTrue => exact absurd h (by simp)
    case isFalse =>
      cases h
      exact ⟨Xs, ys, hX, hy, rfl, rfl, rfl, rfl⟩
  case h_2 => exact absurd h (by simp)

theorem collectGo_trace (env : Env) (t : Nat) :
    ∀ (fuel i : Nat) (lst : List Nat) (s : SolverState) (lst2 : List Nat) (s2 : SolverState),
      collectGo env t fuel i lst s = .ok (lst2, s2) →
      ∃ suf, s2.events = s.events ++ suf ∧
        (∀ e ∈ suf, ∃ id, e = Event.harvest id) ∧
        s2.evaluate_counter = s.evaluate_counter := by
  intro fuel
  induction fuel with
  | zero =>
    intro i lst s lst2 s2 h
    simp only [collectGo] at h
    cases h
    exact ⟨[], by simp, by simp, rfl⟩
  | succ n ih =>
    intro i lst s lst2 s2 h
    simp only [collectGo] at h
    split at h
    case isTrue hi =>
      split at h
      case isTrue hdone =>
        split at h
        case h_1 e he => exact absurd h (by simp)
        case h_2 s3 hs3 =>
          obtain ⟨Xs, ys, _, _, hev3, hcnt3, _, _⟩ :=
            processTrial_delta env t (lst.get ⟨i, hi⟩) s s3 hs3
          obtain ⟨suf, hev, hsuf, hcnt⟩ := ih (i + 1) (lst.erase (lst.get ⟨i, hi⟩)) s3 lst2 s2 h
          refine ⟨[Event.harvest (lst.get ⟨i, hi⟩)] ++ suf, ?_, ?_, ?_⟩
          · rw [hev, hev3, List.append_assoc]
          · intro e he
            rcases List.mem_append.mp he with h1 | h1
            · simp at h1; exact ⟨_, h1⟩
            · exact hsuf e h1
          · rw [hcnt, hcnt3]
      case isFalse hdone => exact ih (i + 1) lst s lst2 s2 h
    case isFalse hi =>
      cases h
      exact ⟨[], by simp, by simp, rfl⟩

theorem collect_trace (env : Env) (s s2 : SolverState)
    (h : collect env s = .ok s2) :
    ∃ suf, s2.events = s.events ++ suf ∧
      (∀ e ∈ suf, ∃ id, e = Event.harvest id) ∧
      s2.evaluate_counter = s.evaluate_counter := by
  simp only [collect] at h
  split at h
  case h_1 => exact absurd h (by simp)
  case h_2 lst p hp =>
    cases h
    simpa using collectGo_trace env s.ticks s.trial_statistics.length 0
      s.trial_statistics s lst p hp

theorem collect_subTrace (env : Env) (s s2 : SolverState)
    (h : collect env s = .ok s2)
    (h1 : s.evaluate_counter = env.init_points + submitCount s.events)
    (h2 : SubTrace env.train_interval env.init_points s.events) :
    s2.evaluate_counter = env.init_points + submitCount s2.events ∧
    SubTrace env.train_interval env.init_points s2.events := by
  obtain ⟨suf, hev, hsuf, hcnt⟩ := collect_trace env s s2 h
  have hnos : ∀ e ∈ suf, isSubmitEv e = false := by
    intro e he
    obtain ⟨id, rfl⟩ := hsuf e he
    rfl
  constructor
  · rw [hcnt, hev, submitCount_append, submitCount_eq_zero suf hnos, h1]
    omega
  · rw [hev]
    exact subTrace_append env.train_interval s.events env.init_points suf h2
      (subTrace_of_noSubmit env.train_interval suf _ hnos)

theorem tick_subTrace (env : Env) (s s2 : SolverState)
    (h : tick env s = .ok s2)
    (h1 : s.evaluate_counter = env.init_points + submitCount s.events)
    (h2 : SubTrace env.train_interval env.init_points s.events) :
    s2.evaluate_counter = env.init_points + submitCount s2.events ∧
    SubTrace env.train_interval env.init_points s2.events := by
  simp only [tick] at h
  split at h
  case h_1 => exact absurd h (by simp)
  case h_2 s3 hs3 =>
    have hinv3 : s3.evaluate_counter = env.init_points + submitCount s3.events ∧
        SubTrace env.train_interval env.init_points s3.events := by
      split at hs3
      case isTrue =>
        cases hs3
        refine ⟨?_, ?_⟩
        · simpa [submitCount_append, submitCount, List.countP_cons, isSubmitEv] using h1
        · exact subTrace_append env.train_interval s.events env.init_points [Event.sleep] h2
            (subTrace_of_noSubmit env.train_interval [Event.sleep] _ (by intro e he; simp at he; subst he; rfl))
      case isFalse =>
        split at hs3
        case isTrue => exact absurd hs3 (by simp)
        case isFalse hti =>
          split at hs3
          case h_1 => exact absurd hs3 (by simp)
          case h_2 br hbr =>
            cases hs3
            constructor
            · rw [submitCount_choose_submit]
              simp only []
              omega
            · apply subTrace_append env.train_interval s.events env.init_points _ h2
              show SubTrace env.train_interval (env.init_points + submitCount s.events)
                [Event.chooseNext s.X s.y _ br.1, Event.submit s.nextTrialId s.evaluate_counter _]
              show SubTrace env.train_interval (env.init_points + submitCount s.events)
                [Event.submit s.nextTrialId s.evaluate_counter _]
              exact ⟨h1, by rw [h1], trivial⟩
    exact collect_subTrace env s3 s2 h hinv3.1 hinv3.2



theorem loopIter_subTrace (env : Env) (n : Nat) :
    ∀ (fuel : Nat) (s s2 : SolverState),
      loopIter env n fuel s = .ok s2 →
      s.evaluate_counter = env.init_points + submitCount s.events →
      SubTrace env.train_interval env.init_points s.events →
      s2.evaluate_counter = env.init_points + submitCount s2.events ∧
      SubTrace env.train_interval env.init_points s2.events := by
  intro fuel
  induction fuel with
  | zero =>
    intro s s2 h h1 h2
    simp only [loopIter] at h
    cases h
    exact ⟨h1, h2⟩
  | succ m ih =>
    intro s s2 h h1 h2
    simp only [loopIter] at h
    split at h
    case isTrue =>
      split at h
      case h_1 => exact absurd h (by simp)
      case h_2 s3 hs3 =>
        obtain ⟨h1b, h2b⟩ := tick_subTrace env s s3 hs3 h1 h2
        exact ih s3 s2 h h1b h2b
    case isFalse =>
      cases h
      exact ⟨h1, h2⟩

theorem initStep_events (env : Env) (acc : List (List Int) × List Int × SolverState) (i : Nat) :
    ∃ suf, (initStep env acc i).2.2.events = acc.2.2.events ++ suf ∧
      ∀ e ∈ suf, isSubmitEv e = false := by
  refine ⟨if env.output_path then [Event.save i] else [], rfl, ?_⟩
  split
  · intro e he
    simp at he
    subst he
    rfl
  · intro e he
    simp at he

theorem initFold_events (env : Env) :
    ∀ (idxs : List Nat) (acc : List (List Int) × List Int × SolverState),
      ∃ suf, (idxs.foldl (initStep env) acc).2.2.events = acc.2.2.events ++ suf ∧
        ∀ e ∈ suf, isSubmitEv e = false := by
  intro idxs
  induction idxs with
  | nil =>
    intro acc
    exact ⟨[], by simp, by simp⟩
  | cons i t ih =>
    intro acc
    obtain ⟨s1, h1, hn1⟩ := initStep_events env acc i
    obtain ⟨s2, h2, hn2⟩ := ih (initStep env acc i)
    refine ⟨s1 ++ s2, ?_, ?_⟩
    · rw [List.foldl_cons, h2, h1, List.append_assoc]
    · intro e he
      rcases List.mem_append.mp he with hm | hm
      exacts [hn1 e hm, hn2 e hm]

theorem initialPhase_events (env : Env) (s0 s1 : SolverState)
    (h : initialPhase env s0 = .ok s1) :
    ∃ suf, s1.events = s0.events ++ suf ∧ ∀ e ∈ suf, isSubmitEv e = false := by
  simp only [initialPhase] at h
  split at h
  case isTrue => exact absurd h (by simp)
  case isFalse =>
    cases h
    obtain ⟨suf, hsuf, hn⟩ := initFold_events env (List.range env.init_points)
      ([], [], { s0 with
        trial_statistics := List.range env.init_points
        nextTrialId := env.init_points
        events := s0.events ++ (List.range env.init_points).map Event.initSubmit })
    refine ⟨(List.range env.init_points).map Event.initSubmit ++ suf, ?_, ?_⟩
    · show ((List.range env.init_points).foldl (initStep env) _).2.2.events = _
      rw [hsuf]
      simp [List.append_assoc]
    · intro e he
      rcases List.mem_append.mp he with hm | hm
      · obtain ⟨i, _, rfl⟩ := List.mem_map.mp hm
        rfl
      · exact hn e hm

theorem runFinish_subTrace (env : Env) (n fuel : Nat) (s1 : SolverState)
    (p : SolverState × (List Int × Int))
    (h : runFinish env n fuel s1 = .ok p)
    (hn : ∀ e ∈ s1.events, isSubmitEv e = false) :
    SubTrace env.train_interval env.init_points p.1.events := by
  simp only [runFinish] at h
  split at h
  case h_1 => exact absurd h (by simp)
  case h_2 s3 hs3 =>
    have hstart1 : ({ s1 with trial_statistics := [], evaluate_counter := env.init_points } : SolverState).evaluate_counter
        = env.init_points +
          submitCount ({ s1 with trial_statistics := [], evaluate_counter := env.init_points } : SolverState).events := by
      simp [submitCount_eq_zero s1.events hn]
    have hstart2 : SubTrace env.train_interval env.init_points
        ({ s1 with trial_statistics := [], evaluate_counter := env.init_points } : SolverState).events :=
      subTrace_of_noSubmit env.train_interval s1.events env.init_points hn
    obtain ⟨h1b, h2b⟩ := loopIter_subTrace env n fuel _ s3 hs3 hstart1 hstart2
    split at h
    case h_1 => exact absurd h (by simp)
    case h_2 s4 hs4 =>
      have hinv4 : s4.evaluate_counter = env.init_points + submitCount s4.events ∧
          SubTrace env.train_interval env.init_points s4.events := by
        split at hs4
        · exact collect_subTrace env s3 s4 hs4 h1b h2b
        · cases hs4
          exact ⟨h1b, h2b⟩
      split at h
      case h_1 pt v hpt hv =>
        cases h
        exact hinv4.2
      case h_2 => exact absurd h (by simp)

theorem runSolver_subTrace (env : Env) (n : Nat) (X0 : Option (List (List Int)))
    (y0 : Option (List Int)) (fuel : Nat) (p : SolverState × (List Int × Int))
    (h : runSolver env n X0 y0 fuel = .ok p) :
    SubTrace env.train_interval env.init_points p.1.events := by
  cases X0 with
  | none =>
    cases y0 with
    | none =>
      simp only [runSolver] at h
      split at h
      case h_1 => exact absurd h (by simp)
      case h_2 s1 hs1 =>
        obtain ⟨suf, hev, hn⟩ := initialPhase_events env initState s1 hs1
        apply runFinish_subTrace env n fuel s1 p h
        rw [hev]
        intro e he
        rcases List.mem_append.mp he with hm | hm
        · simp [initState] at hm
        · exact hn e hm
    | some ys =>
      simp only [runSolver] at h
      apply runFinish_subTrace env n fuel _ p h
      intro e he
      simp [initState] at he
  | some Xs =>
    simp only [runSolver] at h
    apply runFinish_subTrace env n fuel _ p h
    intro e he
    simp [initState] at he

/-- C7: in any successful run, every main-loop submission carries a
retrain flag (`do_optimize`) that is true exactly when
`(submitted_count + 1) % train_interval == 0`, where the submitted-trial
counter counts submissions starting at `init_points` (the initial
submissions) and advances by one per main-loop submission, not per
completion: the run's event trace satisfies `SubTrace train_interval
init_points`. -/
theorem c7_retrain_flag (env : Env) (n : Nat) (X0 : Option (List (List Int)))
    (y0 : Option (List Int)) (fuel : Nat) (ev : List Event)
    (h : (runSolver env n X0 y0 fuel).map (fun p => p.1.events) = Except.ok ev) :
    SubTrace env.train_interval env.init_points ev := by
  cases hr : runSolver env n X0 y0 fuel with
  | error e =>
    rw [hr] at h
    exact absurd h (by simp [Except.map])
  | ok p =>
    rw [hr] at h
    simp only [Except.map] at h
    cases h
    exact runSolver_subTrace env n X0 y0 fuel p hr

/-- Witness for C7: a concrete two-iteration run whose trace contains one
main-loop submission, with counter 1 (= one initial point) and retrain flag
`(1 + 1) % 1 == 0 = true`. -/
theorem c7_witness :
    (runSolver envA 2 none none 2).map (fun p => p.1.events) =
      Except.ok [Event.initSubmit 0,
        Event.chooseNext (some [[0]]) (some [5]) true ChooseBranch.initDesign,
        Event.submit 1 1 true] ∧
    SubTrace envA.train_interval envA.init_points
      [Event.initSubmit 0,
        Event.chooseNext (some [[0]]) (some [5]) true ChooseBranch.initDesign,
        Event.submit 1 1 true] :=
  ⟨by rfl, c7_retrain_flag envA 2 none none 2 _ (by rfl)⟩


/-! ### The supplied-dataset scenario (C9) -/


theorem find?_append_some (p : Event → Bool) :
    ∀ (l1 l2 : List Event) (e : Event),
      l1.find? p = some e → (l1 ++ l2).find? p = some e := by
  intro l1
  induction l1 with
  | nil =>
    intro l2 e h
    simp [List.find?] at h
  | cons a t ih =>
    intro l2 e h
    by_cases hp : p a
    · rw [List.find?_cons_of_pos _ hp] at h
      rw [List.cons_append, List.find?_cons_of_pos _ hp]
      exact h
    · rw [List.find?_cons_of_neg _ hp] at h
      rw [List.cons_append, List.find?_cons_of_neg _ hp]
      exact ih l2 e h

theorem find?_append_none (p : Event → Bool) :
    ∀ (l1 l2 : List Event), l1.find? p = none → (l1 ++ l2).find? p = l2.find? p := by
  intro l1
  induction l1 with
  | nil => intro l2 _; simp
  | cons a t ih =>
    intro l2 h
    by_cases hp : p a
    · rw [List.find?_cons_of_pos _ hp] at h
      exact absurd h (by simp)
    · rw [List.find?_cons_of_neg _ hp] at h
      rw [List.cons_append, List.find?_cons_of_neg _ hp]
      exact ih l2 h

theorem tick_events (env : Env) (s s2 : SolverState) (h : tick env s = .ok s2) :
    ∃ suf, s2.events = s.events ++ suf ∧ ∀ e ∈ suf, isInitSubmitEv e = false := by
  simp only [tick] at h
  split at h
  case h_1 => exact absurd h (by simp)
  case h_2 s3 hs3 =>
    obtain ⟨suf2, hev2, hsuf2, _⟩ := collect_trace env s3 s2 h
    have hstep : ∃ suf1, s3.events = s.events ++ suf1 ∧
        ∀ e ∈ suf1, isInitSubmitEv e = false := by
      split at hs3
      case isTrue =>
        cases hs3
        refine ⟨[Event.sleep], rfl, ?_⟩
        intro e he
        simp at he
        subst he
        rfl
      case isFalse =>
        split at hs3
        case isTrue => exact absurd hs3 (by simp)
        case isFalse =>
          split at hs3
          case h_1 => exact absurd hs3 (by simp)
          case h_2 br hbr =>
            cases hs3
            refine ⟨[Event.chooseNext s.X s.y _ br.1,
              Event.submit s.nextTrialId s.evaluate_counter _], rfl, ?_⟩
            intro e he
            simp at he
            rcases he with rfl | rfl <;> rfl
    obtain ⟨suf1, hev1, hn1⟩ := hstep
    refine ⟨suf1 ++ suf2, by rw [hev2, hev1, List.append_assoc], ?_⟩
    intro e he
    rcases List.mem_append.mp he with hm | hm
    · exact hn1 e hm
    · obtain ⟨id, rfl⟩ := hsuf2 e hm
      rfl

theorem loopIter_events (env : Env) (n : Nat) :
    ∀ (fuel : Nat) (s s2 : SolverState), loopIter env n fuel s = .ok s2 →
      ∃ suf, s2.events = s.events ++ suf ∧ ∀ e ∈ suf, isInitSubmitEv e = false := by
  intro fuel
  induction fuel with
  | zero =>
    intro s s2 h
    simp only [loopIter] at h
    cases h
    exact ⟨[], by simp, by simp⟩
  | succ m ih =>
    intro s s2 h
    simp only [loopIter] at h
    split at h
    case isTrue =>
      split at h
      case h_1 => exact absurd h (by simp)
      case h_2 s3 hs3 =>
        obtain ⟨suf1, hev1, hn1⟩ := tick_events env s s3 hs3
        obtain ⟨suf2, hev2, hn2⟩ := ih s3 s2 h
        refine ⟨suf1 ++ suf2, by rw [hev2, hev1, List.append_assoc], ?_⟩
        intro e he
        rcases List.mem_append.mp he with hm | hm
        exacts [hn1 e hm, hn2 e hm]
    case isFalse =>
      cases h
      exact ⟨[], by simp, by simp⟩

theorem loopIter_first_choose (env : Env) (n : Nat) (X0 : List (List Int)) (y0 : List Int) :
    ∀ (fuel : Nat) (s s2 : SolverState),
      loopIter env n fuel s = .ok s2 →
      s.X = some X0 → s.y = some y0 → s.trial_statistics = [] → s.events = [] →
      ∀ e, s2.events.find? isChooseEv = some e →
        ∃ b br, e = Event.chooseNext (some X0) (some y0) b br := by
  intro fuel
  cases fuel with
  | zero =>
    intro s s2 h hX hy hts hev
    simp only [loopIter] at h
    cases h
    intro e he
    rw [hev] at he
    simp [List.find?] at he
  | succ m =>
    intro s s2 h hX hy hts hev
    simp only [loopIter] at h
    split at h
    case isFalse =>
      cases h
      intro e he
      rw [hev] at he
      simp [List.find?] at he
    case isTrue hlt =>
      split at h
      case h_1 => exact absurd h (by simp)
      case h_2 s3 hs3 =>
        simp only [tick] at hs3
        split at hs3
        case h_1 => exact absurd hs3 (by simp)
        case h_2 s4 hs4 =>
          have hcong : ¬ (({ s with ticks := s.ticks + 1 } : SolverState).trial_statistics.length
              > 2 * env.num_workers) := by
            simp [hts]
          rw [if_neg hcong] at hs4
          by_cases hti : env.train_interval = 0
          · rw [if_pos hti] at hs4
            exact absurd hs4 (by simp)
          · rw [if_neg hti] at hs4
            rw [hX, hy] at hs4
            simp only [choose_next] at hs4
            have hs4ev : ∃ b br, s4.events =
                s.events ++ [Event.chooseNext (some X0) (some y0) b br,
                  Event.submit s.nextTrialId s.evaluate_counter b] := by
              split at hs4
              case h_1 => exact absurd hs4 (by simp)
              case h_2 br hbr =>
                cases hs4
                exact ⟨_, _, rfl⟩
            obtain ⟨b, br, hev4⟩ := hs4ev
            obtain ⟨suf2, hev3, hsuf2, _⟩ := collect_trace env s4 s3 hs3
            obtain ⟨suf3, hev2, _⟩ := loopIter_events env n m s3 s2 h
            intro e he
            rw [hev2, hev3, hev4, hev] at he
            simp only [List.nil_append, List.cons_append, List.append_assoc] at he
            rw [List.find?_cons_of_pos _ (by rfl)] at he
            cases he
            exact ⟨b, br, rfl⟩

/-- C9: when `run` is called with both `X` and `y` supplied, the
initial-design phase is skipped entirely - the trace of the run contains no
initial-design submission - and the supplied dataset is stored and used
as-is: the first `choose_next` call of the run (the first `chooseNext`
event of the trace, if any) receives exactly the supplied `X` and `y`,
unchanged. -/
theorem c9_supplied_dataset (env : Env) (n : Nat) (X0 : List (List Int))
    (y0 : List Int) (fuel : Nat) (ev : List Event)
    (h : (runSolver env n (some X0) (some y0) fuel).map (fun p => p.1.events) = Except.ok ev) :
    (∀ e ∈ ev, isInitSubmitEv e = false) ∧
    ∀ e, ev.find? isChooseEv = some e →
      ∃ b br, e = Event.chooseNext (some X0) (some y0) b br := by
  cases hr : runSolver env n (some X0) (some y0) fuel with
  | error e =>
    rw [hr] at h
    exact absurd h (by simp [Except.map])
  | ok p =>
    rw [hr] at h
    simp only [Except.map] at h
    cases h
    simp only [runSolver, runFinish] at hr
    split at hr
    case h_1 => exact absurd hr (by simp)
    case h_2 s3 hs3 =>
      split at hr
      case h_1 => exact absurd hr (by simp)
      case h_2 s4 hs4 =>
        have hcol : ∃ suf, s4.events = s3.events ++ suf ∧
            (∀ e ∈ suf, ∃ id, e = Event.harvest id) := by
          split at hs4
          · obtain ⟨suf, hev, hsuf, _⟩ := collect_trace env s3 s4 hs4
            exact ⟨suf, hev, hsuf⟩
          · cases hs4
            exact ⟨[], by simp, by simp⟩
        obtain ⟨sufd, hevd, hsufd⟩ := hcol
        have hp1 : p.1 = s4 := by
          split at hr
          case h_1 pt v hpt hv =>
            cases hr
            rfl
          case h_2 => exact absurd hr (by simp)
        obtain ⟨suf1, hev1, hn1⟩ := loopIter_events env n fuel _ s3 hs3
        constructor
        · intro e he
          rw [hp1, hevd, hev1] at he
          simp only [List.nil_append] at he
          rcases List.mem_append.mp he with hm | hm
          · exact hn1 e hm
          · obtain ⟨id, rfl⟩ := hsufd e hm
            rfl
        · intro e he
          rw [hp1, hevd] at he
          cases hfind : s3.events.find? isChooseEv with
          | some e0 =>
            rw [find?_append_some isChooseEv s3.events sufd e0 hfind] at he
            have hee : e0 = e := by injection he
            subst hee
            exact loopIter_first_choose env n X0 y0 fuel _ s3 hs3 rfl rfl rfl rfl e0 hfind
          | none =>
            rw [find?_append_none isChooseEv s3.events sufd hfind] at he
            have : sufd.find? isChooseEv = none := by
              rw [List.find?_eq_none]
              intro x hx
              obtain ⟨id, rfl⟩ := hsufd x hx
              simp [isChooseEv]
            rw [this] at he
            exact absurd he (by simp)

/-- Witness for C9: a concrete run on a supplied one-row dataset; its trace
has no initial-design submission and its first `chooseNext` event carries
exactly the supplied `X = [[0]]` and `y = [4]`. -/
theorem c9_witness :
    (runSolver envA 2 (some [[0]]) (some [4]) 2).map (fun p => p.1.events) =
      Except.ok [Event.chooseNext (some [[0]]) (some [4]) true ChooseBranch.initDesign,
        Event.submit 0 1 true, Event.harvest 0] ∧
    ((∀ e ∈ [Event.chooseNext (some [[0]]) (some [4]) true ChooseBranch.initDesign,
        Event.submit 0 1 true, Event.harvest 0], isInitSubmitEv e = false) ∧
      ∀ e, ([Event.chooseNext (some [[0]]) (some [4]) true ChooseBranch.initDesign,
        Event.submit 0 1 true, Event.harvest 0].find? isChooseEv) = some e →
        ∃ b br, e = Event.chooseNext (some [[0]]) (some [4]) b br) :=
  ⟨by rfl, c9_supplied_dataset envA 2 [[0]] [4] 2 _ (by rfl)⟩


/-! ### The non-increasing incumbent-value history (C8) -/

theorem nonIncr_nil : NonIncr [] := by
  intro i j hij hj
  simp at hj

theorem getD_concat_len : ∀ (l : List Int) (a : Int), (l ++ [a]).getD l.length 0 = a
  | [], _ => rfl
  | _ :: t, a => getD_concat_len t a

theorem getD_append_lt : ∀ (l l2 : List Int) (i : Nat), i < l.length →
    (l ++ l2).getD i 0 = l.getD i 0
  | [], _, i, h => absurd h (by simp)
  | _ :: _, _, 0, _ => rfl
  | _ :: t, l2, i + 1, h => getD_append_lt t l2 i (Nat.lt_of_succ_lt_succ h)

theorem getLast?_eq_getD : ∀ (l : List Int), l ≠ [] →
    l.getLast? = some (l.getD (l.length - 1) 0)
  | [], h => absurd rfl h
  | [_], _ => rfl
  | x :: y :: t, _ => by
    rw [List.getLast?_cons_cons]
    rw [getLast?_eq_getD (y :: t) (by simp)]
    rfl

theorem nonIncr_append (l : List Int) (a : Int) (h : NonIncr l)
    (hle : ∀ v, l.getLast? = some v → a ≤ v) : NonIncr (l ++ [a]) := by
  intro i j hij hj
  simp only [List.length_append, List.length_cons, List.length_nil] at hj
  by_cases hjl : j < l.length
  · have hil : i < l.length := lt_of_le_of_lt hij hjl
    rw [getD_append_lt l [a] j hjl, getD_append_lt l [a] i hil]
    exact h i j hij hjl
  · have hjeq : j = l.length := by omega
    subst hjeq
    rw [getD_concat_len l a]
    by_cases hil : i < l.length
    · rw [getD_append_lt l [a] i hil]
      have hlne : l ≠ [] := by
        intro he
        subst he
        simp at hil
      have hv := hle _ (getLast?_eq_getD l hlne)
      have hmono := h i (l.length - 1) (by omega) (by omega)
      exact le_trans hv hmono
    · have hieq : i = l.length := by omega
      subst hieq
      rw [getD_concat_len l a]

theorem valuesBound_append (vals ys : List Int) (a : Int) (X2 : List (List Int))
    (h : ValuesBound vals ys) :
    ValuesBound (vals ++ [(estimateIncumbent X2 (ys ++ [a])).2]) (ys ++ [a]) := by
  have hne : ys ++ [a] ≠ [] := by simp
  have hv2 : (estimateIncumbent X2 (ys ++ [a])).2 =
      (ys ++ [a]).getD (argminIdx (ys ++ [a])) 0 := rfl
  constructor
  · apply nonIncr_append vals _ h.1
    intro v hlast
    obtain ⟨e, he, hle⟩ := h.2 v hlast
    have h1 : (estimateIncumbent X2 (ys ++ [a])).2 ≤ e := by
      rw [hv2]
      exact argminVal_le_mem (ys ++ [a]) e (List.mem_append_left [a] he)
    exact le_trans h1 hle
  · intro v hlast
    rw [List.getLast?_concat] at hlast
    cases hlast
    refine ⟨(estimateIncumbent X2 (ys ++ [a])).2, ?_, le_refl _⟩
    rw [hv2]
    exact argminVal_mem (ys ++ [a]) hne

theorem processTrial_incInv (env : Env) (t id : Nat) (s s2 : SolverState)
    (h : processTrial env t id s = .ok s2) (hinv : IncInv s) : IncInv s2 := by
  obtain ⟨Xs, ys, hX, hy, _, _, hy2, hvals⟩ := processTrial_delta env t id s s2 h
  unfold IncInv at hinv ⊢
  rw [hy2, hvals]
  rw [hy] at hinv
  simp only [Option.getD_some] at hinv ⊢
  exact valuesBound_append s.incumbents_values ys ((env.results id).1)
    (Xs ++ [(env.results id).2.2]) hinv

theorem collectGo_incInv (env : Env) (t : Nat) :
    ∀ (fuel i : Nat) (lst : List Nat) (s : SolverState) (lst2 : List Nat) (s2 : SolverState),
      collectGo env t fuel i lst s = .ok (lst2, s2) → IncInv s → IncInv s2 := by
  intro fuel
  induction fuel with
  | zero =>
    intro i lst s lst2 s2 h hinv
    simp only [collectGo] at h
    cases h
    exact hinv
  | succ n ih =>
    intro i lst s lst2 s2 h hinv
    simp only [collectGo] at h
    split at h
    case isTrue hi =>
      split at h
      case isTrue hdone =>
        split at h
        case h_1 => exact absurd h (by simp)
        case h_2 s3 hs3 =>
          exact ih (i + 1) (lst.erase (lst.get ⟨i, hi⟩)) s3 lst2 s2 h
            (processTrial_incInv env t (lst.get ⟨i, hi⟩) s s3 hs3 hinv)
      case isFalse hdone => exact ih (i + 1) lst s lst2 s2 h hinv
    case isFalse hi =>
      cases h
      exact hinv

theorem collect_incInv (env : Env) (s s2 : SolverState)
    (h : collect env s = .ok s2) (hinv : IncInv s) : IncInv s2 := by
  simp only [collect] at h
  split at h
  case h_1 => exact absurd h (by simp)
  case h_2 lst p hp =>
    cases h
    exact collectGo_incInv env s.ticks s.trial_statistics.length 0
      s.trial_statistics s lst p hp hinv

theorem tick_incInv (env : Env) (s s2 : SolverState) (h : tick env s = .ok s2)
    (hinv : IncInv s) : IncInv s2 := by
  simp only [tick] at h
  split at h
  case h_1 => exact absurd h (by simp)
  case h_2 s3 hs3 =>
    have hinv3 : IncInv s3 := by
      split at hs3
      case isTrue =>
        cases hs3
        exact hinv
      case isFalse =>
        split at hs3
        case isTrue => exact absurd hs3 (by simp)
        case isFalse =>
          split at hs3
          case h_1 => exact absurd hs3 (by simp)
          case h_2 br hbr =>
            cases hs3
            exact hinv
    exact collect_incInv env s3 s2 h hinv3

theorem loopIter_incInv (env : Env) (n : Nat) :
    ∀ (fuel : Nat) (s s2 : SolverState),
      loopIter env n fuel s = .ok s2 → IncInv s → IncInv s2 := by
  intro fuel
  induction fuel with
  | zero =>
    intro s s2 h hinv
    simp only [loopIter] at h
    cases h
    exact hinv
  | succ m ih =>
    intro s s2 h hinv
    simp only [loopIter] at h
    split at h
    case isTrue =>
      split at h
      case h_1 => exact absurd h (by simp)
      case h_2 s3 hs3 => exact ih s3 s2 h (tick_incInv env s s3 hs3 hinv)
    case isFalse =>
      cases h
      exact hinv

theorem initFold_incInv (env : Env) :
    ∀ (idxs : List Nat) (acc : List (List Int) × List Int × SolverState),
      ValuesBound acc.2.2.incumbents_values acc.2.1 →
      ValuesBound (idxs.foldl (initStep env) acc).2.2.incumbents_values
        (idxs.foldl (initStep env) acc).2.1 := by
  intro idxs
  induction idxs with
  | nil =>
    intro acc h
    simpa using h
  | cons i t ih =>
    intro acc h
    rw [List.foldl_cons]
    apply ih
    show ValuesBound (acc.2.2.incumbents_values ++
      [(estimateIncumbent (acc.1 ++ [env.initBatch i]) (acc.2.1 ++ [(env.results i).1])).2])
      (acc.2.1 ++ [(env.results i).1])
    exact valuesBound_append acc.2.2.incumbents_values acc.2.1 ((env.results i).1)
      (acc.1 ++ [env.initBatch i]) h

theorem initialPhase_incInv (env : Env) (s1 : SolverState)
    (h : initialPhase env initState = .ok s1) : IncInv s1 := by
  simp only [initialPhase] at h
  split at h
  case isTrue => exact absurd h (by simp)
  case isFalse =>
    cases h
    exact initFold_incInv env (List.range env.init_points) _
      ⟨nonIncr_nil, by intro v hv; simp [initState] at hv⟩

theorem runFinish_nonIncr (env : Env) (n fuel : Nat) (s1 : SolverState)
    (p : SolverState × (List Int × Int))
    (h : runFinish env n fuel s1 = .ok p) (hinv : IncInv s1) :
    NonIncr p.1.incumbents_values := by
  simp only [runFinish] at h
  split at h
  case h_1 => exact absurd h (by simp)
  case h_2 s3 hs3 =>
    have hinv3 : IncInv s3 := loopIter_incInv env n fuel _ s3 hs3 hinv
    split at h
    case h_1 => exact absurd h (by simp)
    case h_2 s4 hs4 =>
      have hinv4 : IncInv s4 := by
        split at hs4
        · exact collect_incInv env s3 s4 hs4 hinv3
        · cases hs4
          exact hinv3
      split at h
      case h_1 pt v hpt hv =>
        cases h
        exact hinv4.1
      case h_2 => exact absurd h (by simp)

/-- C8: in any successful run, the recorded incumbent-value history is
non-increasing: every later entry is less than or equal to every earlier
entry.  Each appended value is a minimum of the full (grown) value dataset
at the time of the arrival, and the dataset only grows, so each new value
is bounded by the previously recorded minimum. -/
theorem c8_values_nonincreasing (env : Env) (n : Nat) (X0 : Option (List (List Int)))
    (y0 : Option (List Int)) (fuel : Nat) (vals : List Int)
    (h : (runSolver env n X0 y0 fuel).map (fun p => p.1.incumbents_values) = Except.ok vals) :
    NonIncr vals := by
  cases hr : runSolver env n X0 y0 fuel with
  | error e =>
    rw [hr] at h
    exact absurd h (by simp [Except.map])
  | ok p =>
    rw [hr] at h
    simp only [Except.map] at h
    cases h
    cases X0 with
    | none =>
      cases y0 with
      | none =>
        simp only [runSolver] at hr
        split at hr
        case h_1 => exact absurd hr (by simp)
        case h_2 s1 hs1 =>
          exact runFinish_nonIncr env n fuel s1 p hr (initialPhase_incInv env s1 hs1)
      | some ys =>
        simp only [runSolver] at hr
        exact runFinish_nonIncr env n fuel _ p hr
          ⟨nonIncr_nil, by intro v hv; simp [initState] at hv⟩
    | some Xs =>
      simp only [runSolver] at hr
      exact runFinish_nonIncr env n fuel _ p hr
        ⟨nonIncr_nil, by intro v hv; simp [initState] at hv⟩

/-- Witness for C8: a concrete run whose recorded incumbent-value history is
`[5]`, which is non-increasing. -/
theorem c8_witness :
    (runSolver envA 2 none none 2).map (fun p => p.1.incumbents_values) =
      Except.ok [5] ∧ NonIncr [5] :=
  ⟨by rfl, c8_values_nonincreasing envA 2 none none 2 [5] (by rfl)⟩


end AsyncSolver
